import Mathlib

/-!
Verification of the structured, level-aware logging core of the repository:
the level filter/tagger (package `log/level`) and the serializing logger
wrapper (`serializedLogger` in the shipping example's main).

The serializing logger is embedded from the Go source
(`type serializedLogger struct { mtx sync.Mutex; log.Logger }` and its
`Log` method).  The level package's implementation is not present in the
sources (only its package documentation is), so the level data model,
tagger and filter are modelled from the specification, as marked on each
definition.
-/

namespace KitLog

/-- Modelled from the spec: the `Level` type of the missing `log/level`
package, an enumerated totally ordered severity
`debug < info < warn < error`. -/
inductive Level : Type where
  | debug : Level
  | info : Level
  | warn : Level
  | error : Level
deriving DecidableEq

/-- Modelled from the spec: `Rank(level) -> integer` with
`debug=0, info=1, warn=2, error=3`. -/
def Level.rank : Level → Nat
  | .debug => 0
  | .info => 1
  | .warn => 2
  | .error => 3

/-- Modelled from the spec: `Compare(a, b) -> {less, equal, greater}`,
implemented by comparing ranks. -/
def Level.cmp (a b : Level) : Ordering :=
  compare a.rank b.rank

/-- Modelled from the spec: the package-wide reserved key that carries the
`Level` value inside a log event. -/
def levelKey : String := "level"

/-- Modelled from the spec: a typed value variant for log-event values.  A
value is either a severity `Level` or an opaque payload (modelled as a
string). -/
inductive LVal : Type where
  | lvl : Level → LVal
  | str : String → LVal
deriving DecidableEq

/-- Modelled from the spec: a `LogEvent` is an ordered sequence of
key/value pairs; keys need not be unique and insertion order matters. -/
abbrev LogEvent : Type := List (String × LVal)

/-- Modelled from the spec: the error taxonomy — a sink error (any failure
returned by a wrapped logger) or the Level Filter's policy-violation error
raised under `TreatAsError`, a named kind distinguishable from sink
errors. -/
inductive Err : Type where
  | sink : String → Err
  | missingLevel : Err
deriving DecidableEq

/-- Modelled from the spec: the `Logger` capability — anything exposing
`Log(event) -> Result<(), Error>`.  The state type `σ` threads the
observable side effects of the terminal sink (what it observed). -/
abbrev Logger (σ : Type) : Type := LogEvent → σ → σ × Except Err Unit

/-- A recording sink: it appends every event it observes to its state and
returns a sink error exactly when the behaviour function `f` says so.
Used to observe which events a wrapper delivers downstream. -/
def recordSink (f : LogEvent → Option String) : Logger (List LogEvent) :=
  fun e calls =>
    (calls ++ [e],
     match f e with
     | some m => Except.error (Err.sink m)
     | none => Except.ok ())

/-- Modelled from the spec: scan an event for the last occurrence of the
reserved severity key, returning its value if present. -/
def lastLevelVal (e : LogEvent) : Option LVal :=
  (e.reverse.find? (fun p => decide (p.1 = levelKey))).map Prod.snd

/-- Modelled from the spec: the severity governing the filter decision —
the value of the last occurrence of the reserved key, when that value is a
`Level`; a malformed (non-`Level`) value is treated as a missing
annotation, per the spec's stated convention. -/
def lastLevel (e : LogEvent) : Option Level :=
  match lastLevelVal e with
  | some (.lvl l) => some l
  | _ => none

/-- Modelled from the spec: the missing-annotation policy of the Level
Filter. -/
inductive MissingPolicy : Type where
  | SquelchSilently : MissingPolicy
  | PassThrough : MissingPolicy
  | TreatAsError : MissingPolicy
deriving DecidableEq

/-- Modelled from the spec: `level.NewFilter` — wrap a logger with a
minimum-allowed level and a missing-annotation policy.  If the last
occurrence of the reserved key carries level `L`, forward the unmodified
event iff `Rank(L) >= Rank(threshold)` (otherwise succeed without
forwarding); if the annotation is missing, apply the policy. -/
def NewFilter (next : Logger σ) (threshold : Level) (policy : MissingPolicy) :
    Logger σ :=
  fun e s =>
    match lastLevel e with
    | some l =>
        if threshold.rank ≤ l.rank then next e s else (s, Except.ok ())
    | none =>
        match policy with
        | .SquelchSilently => (s, Except.ok ())
        | .PassThrough => next e s
        | .TreatAsError => (s, Except.error Err.missingLevel)

/-- Modelled from the spec: `Tag(level, logger)` — the Level Tagger, whose
`Log(event)` appends `(levelKey, level)` to the end of the event and
forwards the extended event to the wrapped logger, returning its result. -/
def Tag (l : Level) (next : Logger σ) : Logger σ :=
  fun e s => next (e ++ [(levelKey, LVal.lvl l)]) s

/-- Modelled from the spec: `level.Debug`, equivalent to `Tag debug`. -/
def Debug : Logger σ → Logger σ := Tag Level.debug

/-- Modelled from the spec: `level.Info`, equivalent to `Tag info`. -/
def Info : Logger σ → Logger σ := Tag Level.info

/-- Modelled from the spec: `level.Warn`, equivalent to `Tag warn`. -/
def Warn : Logger σ → Logger σ := Tag Level.warn

/-- Modelled from the spec: `level.Error`, equivalent to `Tag error`. -/
def Error : Logger σ → Logger σ := Tag Level.error

/-- The filter's acceptance decision, written out as a boolean: an event is
accepted when its governing severity meets the threshold, or when the
annotation is missing and the policy is `PassThrough`. -/
def filterAccepts (threshold : Level) (policy : MissingPolicy) (e : LogEvent) :
    Bool :=
  match lastLevel e with
  | some l => decide (threshold.rank ≤ l.rank)
  | none => decide (policy = MissingPolicy.PassThrough)

/-- Number of reserved-key pairs in an event. -/
def countLevelPairs (e : LogEvent) : Nat :=
  (e.filter (fun p => decide (p.1 = levelKey))).length

/-! ### The serializing logger (embedded from the Go source)

```go
type serializedLogger struct {
    mtx sync.Mutex
    log.Logger
}

func (l *serializedLogger) Log(keyvals ...interface{}) error {
    l.mtx.Lock()
    defer l.mtx.Unlock()
    return l.Logger.Log(keyvals...)
}
```
-/

/-- Outcome of one call to a Go logger's `Log`: a normal return carrying
`error` (here `Except Err Unit`), or a panic that unwinds the caller. -/
inductive LogOutcome : Type where
  | ret : Except Err Unit → LogOutcome
  | panic : LogOutcome

/-- A Go `log.Logger` whose `Log` may return normally or panic; the state
type `σ` threads the sink's observable side effects. -/
abbrev GoLogger (σ : Type) : Type := LogEvent → σ → σ × LogOutcome

/-- Embedded from the source: `serializedLogger` holds one `sync.Mutex`
(`true` = locked) and one embedded `log.Logger`, nothing else. -/
structure serializedLogger (σ : Type) : Type where
  mtx : Bool
  Logger : GoLogger σ

/-- Embedded from the source: construction `&serializedLogger{Logger: logger}`,
whose mutex takes Go's zero value, i.e. unlocked. -/
def mkSerializedLogger (L : GoLogger σ) : serializedLogger σ :=
  { mtx := false, Logger := L }

/-- Embedded from the source: `(*serializedLogger).Log`.  `l.mtx.Lock()`
sets the mutex; the wrapped `l.Logger.Log(keyvals...)` runs on the sink
state; the deferred `l.mtx.Unlock()` runs on every termination of the
call — Go runs deferred functions both on normal return and while
panicking — so the mutex is clear in the resulting struct whatever the
outcome, which is returned unchanged. -/
def serializedLogger.Log (l : serializedLogger σ) (keyvals : LogEvent)
    (s : σ) : serializedLogger σ × σ × LogOutcome :=
  let lLocked : serializedLogger σ := { l with mtx := true }
  let r := lLocked.Logger keyvals s
  ({ lLocked with mtx := false }, r.1, r.2)

/-- A recording Go sink: appends every observed event to its state and
produces the outcome `f` dictates (which may be a panic). -/
def recordGo (f : LogEvent → LogOutcome) : GoLogger (List LogEvent) :=
  fun e calls => (calls ++ [e], f e)

/-! ### Concurrent semantics of the serializing logger

An interleaving model of `N` threads, each executing one call of
`(*serializedLogger).Log` on a shared `serializedLogger`: acquire the
mutex (enabled only when free), perform the wrapped sink call — split
into a begin event and an end event so that interleaving of two sink
calls is expressible — and release the mutex.  The trace records the
begin/end events the wrapped sink observes. -/

/-- Program counter of one thread through `(*serializedLogger).Log`. -/
inductive Phase : Type where
  | start : Phase
  | locked : Phase
  | inCall : Phase
  | unlocking : Phase
  | done : Phase
deriving DecidableEq

/-- A sink-side event: thread `t`'s wrapped `Log` call begins / ends. -/
inductive Ev (N : Nat) : Type where
  | enter : Fin N → Ev N
  | exit : Fin N → Ev N
deriving DecidableEq

/-- Global state: each thread's phase, the mutex owner, and the sink
trace. -/
structure Sys (N : Nat) : Type where
  pcs : Fin N → Phase
  lock : Option (Fin N)
  trace : List (Ev N)

/-- Initial state: all threads before their `Log` call, mutex free
(Go zero value), nothing observed by the sink. -/
def init (N : Nat) : Sys N :=
  ⟨fun _ => Phase.start, none, []⟩

/-- One interleaving step.  `acquire` is `l.mtx.Lock()` (enabled only when
the mutex is free — otherwise the thread blocks); `callBegin`/`callEnd`
delimit the wrapped `l.Logger.Log(keyvals...)` call; `release` is the
deferred `l.mtx.Unlock()`. -/
inductive Step {N : Nat} : Sys N → Sys N → Prop where
  | acquire (s : Sys N) (t : Fin N) (h1 : s.pcs t = Phase.start)
      (h2 : s.lock = none) :
      Step s ⟨Function.update s.pcs t Phase.locked, some t, s.trace⟩
  | callBegin (s : Sys N) (t : Fin N) (h1 : s.pcs t = Phase.locked) :
      Step s ⟨Function.update s.pcs t Phase.inCall, s.lock,
        s.trace ++ [Ev.enter t]⟩
  | callEnd (s : Sys N) (t : Fin N) (h1 : s.pcs t = Phase.inCall) :
      Step s ⟨Function.update s.pcs t Phase.unlocking, s.lock,
        s.trace ++ [Ev.exit t]⟩
  | release (s : Sys N) (t : Fin N) (h1 : s.pcs t = Phase.unlocking)
      (h2 : s.lock = some t) :
      Step s ⟨Function.update s.pcs t Phase.done, none, s.trace⟩

/-- Reachability from the initial state. -/
def Reach (N : Nat) (s : Sys N) : Prop :=
  Relation.ReflTransGen Step (init N) s

/-- Trace scanner: starting with open call `o` (if any), check that the
trace alternates `enter t` / `exit t` with matching threads, returning the
call left open at the end, or `none` if two sink calls overlap. -/
def scanSt {N : Nat} : Option (Fin N) → List (Ev N) → Option (Option (Fin N))
  | o, [] => some o
  | none, Ev.enter t :: r => scanSt (some t) r
  | none, Ev.exit _ :: _ => none
  | some t, Ev.exit u :: r => if t = u then scanSt none r else none
  | some _, Ev.enter _ :: _ => none

/-- A trace is serialized when no two sink calls overlap: it is a sequence
of complete `enter t, exit t` blocks, possibly with one final open call. -/
def Serialized {N : Nat} (tr : List (Ev N)) : Prop :=
  (scanSt none tr).isSome

/-- Occurrences of one event in a trace. -/
def cnt {N : Nat} (x : Ev N) : List (Ev N) → Nat
  | [] => 0
  | e :: r => (if e = x then 1 else 0) + cnt x r

/-- Total number of sink calls begun in a trace. -/
def enters {N : Nat} : List (Ev N) → Nat
  | [] => 0
  | Ev.enter _ :: r => 1 + enters r
  | Ev.exit _ :: r => enters r

/-- How many `enter t` events thread `t` has produced by phase. -/
def phEnter : Phase → Nat
  | .start => 0
  | .locked => 0
  | .inCall => 1
  | .unlocking => 1
  | .done => 1

/-- How many `exit t` events thread `t` has produced by phase. -/
def phExit : Phase → Nat
  | .start => 0
  | .locked => 0
  | .inCall => 0
  | .unlocking => 1
  | .done => 1

/-- Thread `t` holds the mutex somewhere inside its `Log` call. -/
def holds {N : Nat} (s : Sys N) (t : Fin N) : Prop :=
  s.pcs t = Phase.locked ∨ s.pcs t = Phase.inCall ∨
    s.pcs t = Phase.unlocking

/-! ### Trace lemmas -/

theorem scanSt_append {N : Nat} (tr tr' : List (Ev N)) :
    ∀ o, scanSt o (tr ++ tr') = (scanSt o tr).bind (fun o' => scanSt o' tr') := by
  induction tr with
  | nil => intro o; simp [scanSt]
  | cons e r ih =>
      intro o
      cases o with
      | none =>
          cases e with
          | enter t => simpa [scanSt] using ih (some t)
          | exit t => simp [scanSt]
      | some t =>
          cases e with
          | enter u => simp [scanSt]
          | exit u =>
              by_cases h : t = u
              · subst h; simpa [scanSt] using ih none
              · simp [scanSt, h]

theorem scanSt_snoc_enter {N : Nat} {tr : List (Ev N)} {t : Fin N}
    (h : scanSt none tr = some none) :
    scanSt none (tr ++ [Ev.enter t]) = some (some t) := by
  rw [scanSt_append, h]
  simp [scanSt]

theorem scanSt_snoc_exit {N : Nat} {tr : List (Ev N)} {t : Fin N}
    (h : scanSt none tr = some (some t)) :
    scanSt none (tr ++ [Ev.exit t]) = some none := by
  rw [scanSt_append, h]
  simp [scanSt]

theorem cnt_append {N : Nat} (x : Ev N) (tr tr' : List (Ev N)) :
    cnt x (tr ++ tr') = cnt x tr + cnt x tr' := by
  induction tr with
  | nil => simp [cnt]
  | cons e r ih => simp [cnt, ih]; omega

theorem cnt_single {N : Nat} (x e : Ev N) :
    cnt x [e] = if e = x then 1 else 0 := by
  simp [cnt]

theorem enters_append {N : Nat} (tr tr' : List (Ev N)) :
    enters (tr ++ tr') = enters tr + enters tr' := by
  induction tr with
  | nil => simp [enters]
  | cons e r ih =>
      cases e with
      | enter t => simp [enters, ih]; omega
      | exit t => simp [enters, ih]

/-- The total number of sink calls in a trace is the sum over the threads
of each thread's `enter` count. -/
theorem enters_eq_sum {N : Nat} (tr : List (Ev N)) :
    enters tr = ∑ t : Fin N, cnt (Ev.enter t) tr := by
  induction tr with
  | nil => simp [enters, cnt]
  | cons e r ih =>
      cases e with
      | enter u =>
          have hsum : (∑ t : Fin N, (if (Ev.enter u : Ev N) = Ev.enter t then 1 else 0))
              = 1 := by
            simp [Ev.enter.injEq]
          calc enters (Ev.enter u :: r) = 1 + enters r := by simp [enters]
            _ = (∑ t : Fin N, (if (Ev.enter u : Ev N) = Ev.enter t then 1 else 0))
                  + ∑ t : Fin N, cnt (Ev.enter t) r := by rw [hsum, ih]
            _ = ∑ t : Fin N, cnt (Ev.enter t) (Ev.enter u :: r) := by
                  rw [← Finset.sum_add_distrib]
                  exact Finset.sum_congr rfl (fun t _ => by simp [cnt])
      | exit u =>
          calc enters (Ev.exit u :: r) = enters r := by simp [enters]
            _ = ∑ t : Fin N, cnt (Ev.enter t) r := ih
            _ = ∑ t : Fin N, cnt (Ev.enter t) (Ev.exit u :: r) :=
                  Finset.sum_congr rfl (fun t _ => by simp [cnt])

/-! ### The mutual-exclusion invariant -/

/-- Inductive invariant of the concurrent model: the mutex owner is
exactly the thread inside its `Log` call; the trace is serialized, open
exactly at a thread whose sink call is in progress; and each thread's
`enter`/`exit` counts are determined by its phase. -/
structure Inv {N : Nat} (s : Sys N) : Prop where
  owner : ∀ t, holds s t → s.lock = some t
  ownerHolds : ∀ t, s.lock = some t → holds s t
  openTrace : ∀ t, s.pcs t = Phase.inCall → scanSt none s.trace = some (some t)
  closedTrace : (∀ t, s.pcs t ≠ Phase.inCall) → scanSt none s.trace = some none
  enterCnt : ∀ t, cnt (Ev.enter t) s.trace = phEnter (s.pcs t)
  exitCnt : ∀ t, cnt (Ev.exit t) s.trace = phExit (s.pcs t)

theorem inv_init (N : Nat) : Inv (init N) := by
  refine ⟨?_, ?_, ?_, ?_, ?_, ?_⟩
  · intro t ht
    rcases ht with h | h | h <;> simp [init] at h
  · intro t ht; simp [init] at ht
  · intro t ht; simp [init] at ht
  · intro _; simp [init, scanSt]
  · intro t; simp [init, cnt, phEnter]
  · intro t; simp [init, cnt, phExit]

@[simp] theorem Sys_pcs_mk {N : Nat} (p : Fin N → Phase) (lk : Option (Fin N))
    (tr : List (Ev N)) : (Sys.mk p lk tr).pcs = p := rfl

@[simp] theorem Sys_lock_mk {N : Nat} (p : Fin N → Phase) (lk : Option (Fin N))
    (tr : List (Ev N)) : (Sys.mk p lk tr).lock = lk := rfl

@[simp] theorem Sys_trace_mk {N : Nat} (p : Fin N → Phase) (lk : Option (Fin N))
    (tr : List (Ev N)) : (Sys.mk p lk tr).trace = tr := rfl

theorem inv_step {N : Nat} {s s' : Sys N} (inv : Inv s) (st : Step s s') :
    Inv s' := by
  cases st with
  | acquire t h1 h2 =>
      refine ⟨?_, ?_, ?_, ?_, ?_, ?_⟩
      · intro u hu
        by_cases hut : u = t
        · subst hut; rfl
        · exfalso
          have hsu : holds s u := by
            simpa [holds, Function.update_noteq hut] using hu
          have hcontra := inv.owner u hsu
          rw [h2] at hcontra
          exact Option.noConfusion hcontra
      · intro u hu
        have hut : t = u := by simpa using hu
        subst hut
        left
        simp [Function.update_same]
      · intro u hu
        exfalso
        simp only [Sys_pcs_mk] at hu
        by_cases hut : u = t
        · subst hut
          rw [Function.update_same] at hu
          exact Phase.noConfusion hu
        · rw [Function.update_noteq hut] at hu
          have hcontra := inv.owner u (Or.inr (Or.inl hu))
          rw [h2] at hcontra
          exact Option.noConfusion hcontra
      · intro _
        simp only [Sys_trace_mk]
        apply inv.closedTrace
        intro u hu
        have hcontra := inv.owner u (Or.inr (Or.inl hu))
        rw [h2] at hcontra
        exact Option.noConfusion hcontra
      · intro u
        simp only [Sys_pcs_mk, Sys_trace_mk]
        by_cases hut : u = t
        · subst hut
          rw [Function.update_same]
          have hc := inv.enterCnt u
          rw [h1] at hc
          simpa [phEnter] using hc
        · rw [Function.update_noteq hut]
          exact inv.enterCnt u
      · intro u
        simp only [Sys_pcs_mk, Sys_trace_mk]
        by_cases hut : u = t
        · subst hut
          rw [Function.update_same]
          have hc := inv.exitCnt u
          rw [h1] at hc
          simpa [phExit] using hc
        · rw [Function.update_noteq hut]
          exact inv.exitCnt u
  | callBegin t h1 =>
      have hlock : s.lock = some t := inv.owner t (Or.inl h1)
      have hclosed : ∀ v, s.pcs v ≠ Phase.inCall := by
        intro v hv
        have hcv := inv.owner v (Or.inr (Or.inl hv))
        rw [hlock] at hcv
        have hvt : t = v := by simpa using hcv
        subst hvt
        rw [h1] at hv
        exact Phase.noConfusion hv
      refine ⟨?_, ?_, ?_, ?_, ?_, ?_⟩
      · intro u hu
        simp only [Sys_lock_mk]
        by_cases hut : u = t
        · subst hut; exact hlock
        · apply inv.owner u
          simpa [holds, Function.update_noteq hut] using hu
      · intro u hu
        simp only [Sys_lock_mk] at hu
        rw [hlock] at hu
        have hut : t = u := by simpa using hu
        subst hut
        right; left
        simp [Function.update_same]
      · intro u hu
        simp only [Sys_pcs_mk] at hu
        by_cases hut : u = t
        · subst hut
          simp only [Sys_trace_mk]
          exact scanSt_snoc_enter (inv.closedTrace hclosed)
        · rw [Function.update_noteq hut] at hu
          exact absurd hu (hclosed u)
      · intro hall
        exfalso
        have hcon := hall t
        simp [Function.update_same] at hcon
      · intro u
        simp only [Sys_pcs_mk, Sys_trace_mk]
        rw [cnt_append, cnt_single]
        by_cases hut : u = t
        · subst hut
          rw [Function.update_same]
          have hc := inv.enterCnt u
          rw [h1] at hc
          simp [hc, phEnter]
        · rw [Function.update_noteq hut]
          have hne : (Ev.enter t : Ev N) ≠ Ev.enter u := by
            simp only [ne_eq, Ev.enter.injEq]
            exact Ne.symm hut
          simp [hne, inv.enterCnt u]
      · intro u
        simp only [Sys_pcs_mk, Sys_trace_mk]
        rw [cnt_append, cnt_single]
        by_cases hut : u = t
        · subst hut
          rw [Function.update_same]
          have hc := inv.exitCnt u
          rw [h1] at hc
          simp [hc, phExit]
        · rw [Function.update_noteq hut]
          simp [inv.exitCnt u]
  | callEnd t h1 =>
      have hlock : s.lock = some t := inv.owner t (Or.inr (Or.inl h1))
      refine ⟨?_, ?_, ?_, ?_, ?_, ?_⟩
      · intro u hu
        simp only [Sys_lock_mk]
        by_cases hut : u = t
        · subst hut; exact hlock
        · apply inv.owner u
          simpa [holds, Function.update_noteq hut] using hu
      · intro u hu
        simp only [Sys_lock_mk] at hu
        rw [hlock] at hu
        have hut : t = u := by simpa using hu
        subst hut
        right; right
        simp [Function.update_same]
      · intro u hu
        exfalso
        simp only [Sys_pcs_mk] at hu
        by_cases hut : u = t
        · subst hut
          rw [Function.update_same] at hu
          exact Phase.noConfusion hu
        · rw [Function.update_noteq hut] at hu
          have hcv := inv.owner u (Or.inr (Or.inl hu))
          rw [hlock] at hcv
          have : t = u := by simpa using hcv
          exact hut this.symm
      · intro _
        simp only [Sys_trace_mk]
        exact scanSt_snoc_exit (inv.openTrace t h1)
      · intro u
        simp only [Sys_pcs_mk, Sys_trace_mk]
        rw [cnt_append, cnt_single]
        by_cases hut : u = t
        · subst hut
          rw [Function.update_same]
          have hc := inv.enterCnt u
          rw [h1] at hc
          simp [hc, phEnter]
        · rw [Function.update_noteq hut]
          simp [inv.enterCnt u]
      · intro u
        simp only [Sys_pcs_mk, Sys_trace_mk]
        rw [cnt_append, cnt_single]
        by_cases hut : u = t
        · subst hut
          rw [Function.update_same]
          have hc := inv.exitCnt u
          rw [h1] at hc
          simp [hc, phExit]
        · rw [Function.update_noteq hut]
          have hne : (Ev.exit t : Ev N) ≠ Ev.exit u := by
            simp only [ne_eq, Ev.exit.injEq]
            exact Ne.symm hut
          simp [hne, inv.exitCnt u]
  | release t h1 h2 =>
      refine ⟨?_, ?_, ?_, ?_, ?_, ?_⟩
      · intro u hu
        exfalso
        by_cases hut : u = t
        · subst hut
          simp [holds, Function.update_same] at hu
        · have hsu : holds s u := by
            simpa [holds, Function.update_noteq hut] using hu
          have hcv := inv.owner u hsu
          rw [h2] at hcv
          have : t = u := by simpa using hcv
          exact hut this.symm
      · intro u hu
        simp only [Sys_lock_mk] at hu
        exact Option.noConfusion hu
      · intro u hu
        exfalso
        simp only [Sys_pcs_mk] at hu
        by_cases hut : u = t
        · subst hut
          rw [Function.update_same] at hu
          exact Phase.noConfusion hu
        · rw [Function.update_noteq hut] at hu
          have hcv := inv.owner u (Or.inr (Or.inl hu))
          rw [h2] at hcv
          have : t = u := by simpa using hcv
          exact hut this.symm
      · intro _
        simp only [Sys_trace_mk]
        apply inv.closedTrace
        intro u
        by_cases hut : u = t
        · subst hut
          rw [h1]
          intro hcon
          exact Phase.noConfusion hcon
        · intro hu
          have hcv := inv.owner u (Or.inr (Or.inl hu))
          rw [h2] at hcv
          have : t = u := by simpa using hcv
          exact hut this.symm
      · intro u
        simp only [Sys_pcs_mk, Sys_trace_mk]
        by_cases hut : u = t
        · subst hut
          rw [Function.update_same]
          have hc := inv.enterCnt u
          rw [h1] at hc
          simpa [phEnter] using hc
        · rw [Function.update_noteq hut]
          exact inv.enterCnt u
      · intro u
        simp only [Sys_pcs_mk, Sys_trace_mk]
        by_cases hut : u = t
        · subst hut
          rw [Function.update_same]
          have hc := inv.exitCnt u
          rw [h1] at hc
          simpa [phExit] using hc
        · rw [Function.update_noteq hut]
          exact inv.exitCnt u

theorem inv_reach {N : Nat} {s : Sys N} (h : Reach N s) : Inv s := by
  induction h with
  | refl => exact inv_init N
  | tail _ hstep ih => exact inv_step ih hstep

/-! ### Lemmas about the reserved-key scan -/

theorem lastLevelVal_of_no_key {e : LogEvent} (h : ∀ p ∈ e, p.1 ≠ levelKey) :
    lastLevelVal e = none := by
  unfold lastLevelVal
  have hfind : e.reverse.find? (fun p => decide (p.1 = levelKey)) = none := by
    rw [List.find?_eq_none]
    intro x hx
    simp only [decide_eq_true_eq]
    exact h x (List.mem_reverse.mp hx)
  rw [hfind]
  rfl

theorem lastLevel_of_no_key {e : LogEvent} (h : ∀ p ∈ e, p.1 ≠ levelKey) :
    lastLevel e = none := by
  unfold lastLevel
  rw [lastLevelVal_of_no_key h]

theorem lastLevelVal_last_key (e₁ e₂ : LogEvent) (v : LVal)
    (h : ∀ p ∈ e₂, p.1 ≠ levelKey) :
    lastLevelVal (e₁ ++ (levelKey, v) :: e₂) = some v := by
  unfold lastLevelVal
  rw [List.reverse_append, List.reverse_cons, List.find?_append,
    List.find?_append]
  have h2 : e₂.reverse.find? (fun p => decide (p.1 = levelKey)) = none := by
    rw [List.find?_eq_none]
    intro x hx
    simp only [decide_eq_true_eq]
    exact h x (List.mem_reverse.mp hx)
  rw [h2, Option.none_or, List.find?_cons_of_pos _ (by simp)]
  rfl

theorem lastLevel_last_key (e₁ e₂ : LogEvent) (l : Level)
    (h : ∀ p ∈ e₂, p.1 ≠ levelKey) :
    lastLevel (e₁ ++ (levelKey, LVal.lvl l) :: e₂) = some l := by
  unfold lastLevel
  rw [lastLevelVal_last_key e₁ e₂ _ h]

/-! ### The claims -/

/-- C8: `Compare` agrees with the total order
`debug < info < warn < error` (lt/eq/gt characterized by ranks), is
antisymmetric and transitive, and `Rank` maps debug, info, warn, error to
the strictly increasing sequence 0, 1, 2, 3. -/
theorem Level_cmp_total_order :
    ∀ a b c : Level,
      (Level.cmp a b = Ordering.lt ↔ a.rank < b.rank) ∧
      (Level.cmp a b = Ordering.eq ↔ a = b) ∧
      (Level.cmp a b = Ordering.gt ↔ b.rank < a.rank) ∧
      (Level.cmp a b = Ordering.lt ↔ Level.cmp b a = Ordering.gt) ∧
      (Level.cmp a b = Ordering.lt → Level.cmp b c = Ordering.lt →
        Level.cmp a c = Ordering.lt) ∧
      Level.rank Level.debug = 0 ∧ Level.rank Level.info = 1 ∧
      Level.rank Level.warn = 2 ∧ Level.rank Level.error = 3 := by
  intro a b c
  cases a <;> cases b <;> cases c <;> decide

/-- Witness for C8 at concrete levels: transitivity applied at
debug, info, warn. -/
theorem Level_cmp_total_order_witness :
    Level.cmp Level.debug Level.warn = Ordering.lt :=
  (Level_cmp_total_order Level.debug Level.info Level.warn).2.2.2.2.1
    (by decide) (by decide)

/-- C3: for every event whose last occurrence of the reserved severity
key carries level `L` and every threshold `T`, the filter forwards the
unmodified event to the wrapped logger, returning its result, iff
`Rank L ≥ Rank T`; a below-threshold event is dropped with a success
result; and when the key occurs several times only the final occurrence
governs the decision. -/
theorem NewFilter_threshold_property
    (f : LogEvent → Option String) (pol : MissingPolicy) (T L : Level)
    (e : LogEvent) (calls : List LogEvent)
    (h : lastLevel e = some L) :
    (T.rank ≤ L.rank →
      NewFilter (recordSink f) T pol e calls = recordSink f e calls) ∧
    (¬ T.rank ≤ L.rank →
      NewFilter (recordSink f) T pol e calls = (calls, Except.ok ())) ∧
    (∀ (e₁ e₂ : LogEvent) (l' : Level), (∀ p ∈ e₂, p.1 ≠ levelKey) →
      lastLevel (e₁ ++ (levelKey, LVal.lvl l') :: e₂) = some l') := by
  refine ⟨?_, ?_, ?_⟩
  · intro hr
    unfold NewFilter
    rw [h]
    simp [hr]
  · intro hr
    unfold NewFilter
    rw [h]
    simp [hr]
  · intro e₁ e₂ l' hno
    exact lastLevel_last_key e₁ e₂ l' hno

/-- Witness for C3: an `error`-leveled event against a `warn` threshold is
forwarded unmodified. -/
theorem NewFilter_threshold_property_witness :
    NewFilter (recordSink (fun _ => none)) Level.warn
        MissingPolicy.SquelchSilently [(levelKey, LVal.lvl Level.error)] [] =
      recordSink (fun _ => none) [(levelKey, LVal.lvl Level.error)] [] :=
  (NewFilter_threshold_property (fun _ => none) MissingPolicy.SquelchSilently
      Level.warn Level.error [(levelKey, LVal.lvl Level.error)] []
      (by decide)).1 (by decide)

/-- C4 counterexample: the event `{msg: "z"}` carries no reserved severity
key (its scan yields nothing), yet under policy `PassThrough` with a
failing sink the filter returns an error although the policy is not
`TreatAsError` — refuting "an error is returned iff the policy is
TreatAsError". -/
theorem NewFilter_missing_error_iff_counterexample :
    lastLevelVal [("msg", LVal.str "z")] = none ∧
    (NewFilter (recordSink (fun _ => some "boom")) Level.debug
        MissingPolicy.PassThrough [("msg", LVal.str "z")] []).2 =
      Except.error (Err.sink "boom") ∧
    MissingPolicy.PassThrough ≠ MissingPolicy.TreatAsError := by
  refine ⟨rfl, rfl, by decide⟩

/-- C4 amended: for an event with no occurrence of the reserved severity
key, delivery to the wrapped logger occurs iff the policy is
`PassThrough`; an error is returned iff the policy is `TreatAsError` or
the policy is `PassThrough` and the wrapped logger itself fails on the
delivered event; under `TreatAsError` the wrapped logger is not called
and the policy-violation error — distinguishable from every sink error —
is returned; under `SquelchSilently` success is returned without
delivery. -/
theorem NewFilter_missing_policy_amended
    (f : LogEvent → Option String) (pol : MissingPolicy) (T : Level)
    (e : LogEvent) (calls : List LogEvent)
    (h : ∀ p ∈ e, p.1 ≠ levelKey) :
    ((NewFilter (recordSink f) T pol e calls).1 = calls ++ [e] ↔
       pol = MissingPolicy.PassThrough) ∧
    ((∃ er, (NewFilter (recordSink f) T pol e calls).2 = Except.error er) ↔
       (pol = MissingPolicy.TreatAsError ∨
        (pol = MissingPolicy.PassThrough ∧ (f e).isSome))) ∧
    (pol = MissingPolicy.TreatAsError →
       (NewFilter (recordSink f) T pol e calls).1 = calls ∧
       (NewFilter (recordSink f) T pol e calls).2 =
         Except.error Err.missingLevel ∧
       ∀ m, Err.missingLevel ≠ Err.sink m) ∧
    (pol = MissingPolicy.SquelchSilently →
       (NewFilter (recordSink f) T pol e calls).1 = calls ∧
       (NewFilter (recordSink f) T pol e calls).2 = Except.ok ()) := by
  have hl : lastLevel e = none := lastLevel_of_no_key h
  cases pol <;> cases hfe : f e <;>
    simp [NewFilter, hl, recordSink, hfe]

/-- Witness for C4 (amended): a key-less event under `TreatAsError`
returns the policy-violation error. -/
theorem NewFilter_missing_policy_amended_witness :
    (NewFilter (recordSink (fun _ => none)) Level.debug
        MissingPolicy.TreatAsError [("msg", LVal.str "z")] []).2 =
      Except.error Err.missingLevel :=
  ((NewFilter_missing_policy_amended (fun _ => none)
      MissingPolicy.TreatAsError Level.debug [("msg", LVal.str "z")] []
      (by decide)).2.2.1 rfl).2.1

/-- C5 counterexample: tagging at `info` an event that already contains a
reserved-key pair with value `info` delivers an event with two
reserved-key pairs, not exactly one. -/
theorem Tag_exactly_one_counterexample :
    ((Tag Level.info (recordSink (fun _ => none)))
        [(levelKey, LVal.lvl Level.info)] []).1 =
      [[(levelKey, LVal.lvl Level.info), (levelKey, LVal.lvl Level.info)]] ∧
    countLevelPairs
        [(levelKey, LVal.lvl Level.info), (levelKey, LVal.lvl Level.info)]
      = 2 :=
  ⟨rfl, rfl⟩

/-- C5 amended: `Tag level logger` appends `(levelKey, level)` to the end
of the event and forwards the extended event, returning the wrapped
logger's result; the appended pair is the last pair of the delivered
event and its last reserved-key occurrence, hence governs the filter's
decision, superseding any caller-supplied reserved pairs — which remain
in place, the delivered event containing exactly one more reserved-key
pair than the input (so exactly one when the input contained none); and
`Debug`, `Info`, `Warn`, `Error` are `Tag` at the corresponding level. -/
theorem Tag_appends_level_as_last_pair
    (l : Level) (e : LogEvent) (f : LogEvent → Option String)
    (calls : List LogEvent) :
    Tag l (recordSink f) e calls
        = recordSink f (e ++ [(levelKey, LVal.lvl l)]) calls ∧
    (Tag l (recordSink f) e calls).1
        = calls ++ [e ++ [(levelKey, LVal.lvl l)]] ∧
    (e ++ [(levelKey, LVal.lvl l)]).getLast? = some (levelKey, LVal.lvl l) ∧
    lastLevel (e ++ [(levelKey, LVal.lvl l)]) = some l ∧
    countLevelPairs (e ++ [(levelKey, LVal.lvl l)]) = countLevelPairs e + 1 ∧
    (∀ (σ : Type) (g : Logger σ),
      Debug g = Tag Level.debug g ∧ Info g = Tag Level.info g ∧
      Warn g = Tag Level.warn g ∧ Error g = Tag Level.error g) := by
  refine ⟨rfl, rfl, ?_, ?_, ?_, ?_⟩
  · simp
  · exact lastLevel_last_key e [] l (by simp)
  · unfold countLevelPairs
    rw [List.filter_append]
    simp [levelKey]
  · intro σ g
    exact ⟨rfl, rfl, rfl, rfl⟩

/-- C6: the filter never mutates an event — when it delivers, the wrapped
logger receives exactly the input event — and per `Log` call the wrapped
logger is invoked exactly once if the event is accepted and zero times if
it is rejected. -/
theorem NewFilter_no_mutation_single_delivery
    (f : LogEvent → Option String) (T : Level) (pol : MissingPolicy)
    (e : LogEvent) (calls : List LogEvent) :
    (NewFilter (recordSink f) T pol e calls).1 =
      (if filterAccepts T pol e then calls ++ [e] else calls) := by
  unfold NewFilter filterAccepts
  cases hl : lastLevel e with
  | some l =>
      by_cases hr : T.rank ≤ l.rank <;> simp [recordSink, hr]
  | none =>
      cases pol <;> simp [recordSink]

/-- C2: every call of the serializing logger's `Log` calls the wrapped
logger exactly once with the given event, releases the mutex on exit, and
returns the wrapped call's outcome unchanged; in particular any error of
the wrapped logger is propagated verbatim, never suppressed, retried or
transformed. -/
theorem serializedLogger_Log_propagates
    (f : LogEvent → LogOutcome) (e : LogEvent) (calls : List LogEvent)
    (E : Err) :
    ((mkSerializedLogger (recordGo f)).Log e calls).2.1 = calls ++ [e] ∧
    ((mkSerializedLogger (recordGo f)).Log e calls).2.2 = f e ∧
    ((mkSerializedLogger (recordGo f)).Log e calls).1.mtx = false ∧
    ((mkSerializedLogger
        (recordGo (fun _ => LogOutcome.ret (Except.error E)))).Log
        e calls).2.2 = LogOutcome.ret (Except.error E) :=
  ⟨rfl, rfl, rfl, rfl⟩

/-- C9: the serializing logger's `Log` passes the exact argument sequence,
unchanged in content and order, to the wrapped logger: the sink's
observed history is extended by precisely the argument event, and the
wrapped logger is invoked on exactly the given event and state. -/
theorem serializedLogger_Log_args_verbatim
    (f : LogEvent → LogOutcome) (e : LogEvent) (calls : List LogEvent)
    (σ : Type) (l : serializedLogger σ) (s : σ) :
    ((mkSerializedLogger (recordGo f)).Log e calls).2.1 = calls ++ [e] ∧
    (l.Log e s).2.1 = (l.Logger e s).1 ∧
    (l.Log e s).2.2 = (l.Logger e s).2 :=
  ⟨rfl, rfl, rfl⟩

/-- C7: the serializing logger's state is exactly one mutex — unlocked at
construction — paired with the one wrapped logger fixed at construction;
`Log` never rebinds the wrapped logger, and the mutex is free again when
each `Log` call ends, so it is never held across more than one call. -/
theorem serializedLogger_state_fixed
    (σ : Type) (L : GoLogger σ) (l : serializedLogger σ) (e : LogEvent)
    (s : σ) :
    (mkSerializedLogger L).mtx = false ∧
    (mkSerializedLogger L).Logger = L ∧
    (l.Log e s).1.Logger = l.Logger ∧
    (l.Log e s).1.mtx = false :=
  ⟨rfl, rfl, rfl, rfl⟩

/-- C10: the unlock being deferred, the mutex is released on every
termination of `Log`: whatever the wrapped logger does, the resulting
state has the mutex free, and with a wrapped logger that panics instead
of returning, the call still ends with the mutex free while the panic
propagates — no execution leaves the lock held. -/
theorem serializedLogger_Log_releases_on_panic
    (σ : Type) (l : serializedLogger σ) (e : LogEvent) (s : σ)
    (calls : List LogEvent) :
    (l.Log e s).1.mtx = false ∧
    ((mkSerializedLogger (recordGo (fun _ => LogOutcome.panic))).Log
        e calls).1.mtx = false ∧
    ((mkSerializedLogger (recordGo (fun _ => LogOutcome.panic))).Log
        e calls).2.2 = LogOutcome.panic :=
  ⟨rfl, rfl, rfl⟩

/-- C1: under `N` concurrent callers each issuing one `Log` call through
one serializing logger, every complete execution delivers to the wrapped
sink a fully serialized trace — each begun sink call ends before any
other begins — containing exactly `N` sink calls, each caller's call
observed exactly once. -/
theorem serializedLogger_serializes_concurrent_calls
    {N : Nat} (s : Sys N) (h : Reach N s)
    (hdone : ∀ t, s.pcs t = Phase.done) :
    scanSt none s.trace = some none ∧
    enters s.trace = N ∧
    ∀ t, cnt (Ev.enter t) s.trace = 1 ∧ cnt (Ev.exit t) s.trace = 1 := by
  have inv := inv_reach h
  have hclosed : scanSt none s.trace = some none := by
    apply inv.closedTrace
    intro t
    rw [hdone t]
    intro hcon
    exact Phase.noConfusion hcon
  have hent : ∀ t, cnt (Ev.enter t) s.trace = 1 := by
    intro t
    have hc := inv.enterCnt t
    rw [hdone t] at hc
    simpa [phEnter] using hc
  have hext : ∀ t, cnt (Ev.exit t) s.trace = 1 := by
    intro t
    have hc := inv.exitCnt t
    rw [hdone t] at hc
    simpa [phExit] using hc
  refine ⟨hclosed, ?_, fun t => ⟨hent t, hext t⟩⟩
  rw [enters_eq_sum]
  calc (∑ t : Fin N, cnt (Ev.enter t) s.trace) = ∑ _t : Fin N, 1 :=
        Finset.sum_congr rfl (fun t _ => hent t)
    _ = N := by simp

/-- A complete two-thread execution of the serializing logger, step by
step: thread 0 locks, calls, unlocks; then thread 1 does. -/
def wS0 : Sys 2 := init 2

/-- Thread 0 acquired the mutex. -/
def wS1 : Sys 2 := ⟨Function.update wS0.pcs 0 Phase.locked, some 0, wS0.trace⟩

/-- Thread 0 began its sink call. -/
def wS2 : Sys 2 :=
  ⟨Function.update wS1.pcs 0 Phase.inCall, wS1.lock, wS1.trace ++ [Ev.enter 0]⟩

/-- Thread 0 finished its sink call. -/
def wS3 : Sys 2 :=
  ⟨Function.update wS2.pcs 0 Phase.unlocking, wS2.lock,
    wS2.trace ++ [Ev.exit 0]⟩

/-- Thread 0 released the mutex. -/
def wS4 : Sys 2 := ⟨Function.update wS3.pcs 0 Phase.done, none, wS3.trace⟩

/-- Thread 1 acquired the mutex. -/
def wS5 : Sys 2 := ⟨Function.update wS4.pcs 1 Phase.locked, some 1, wS4.trace⟩

/-- Thread 1 began its sink call. -/
def wS6 : Sys 2 :=
  ⟨Function.update wS5.pcs 1 Phase.inCall, wS5.lock, wS5.trace ++ [Ev.enter 1]⟩

/-- Thread 1 finished its sink call. -/
def wS7 : Sys 2 :=
  ⟨Function.update wS6.pcs 1 Phase.unlocking, wS6.lock,
    wS6.trace ++ [Ev.exit 1]⟩

/-- Thread 1 released the mutex: both threads done. -/
def wS8 : Sys 2 := ⟨Function.update wS7.pcs 1 Phase.done, none, wS7.trace⟩

theorem wReach : Reach 2 wS8 :=
  Relation.ReflTransGen.tail
    (Relation.ReflTransGen.tail
      (Relation.ReflTransGen.tail
        (Relation.ReflTransGen.tail
          (Relation.ReflTransGen.tail
            (Relation.ReflTransGen.tail
              (Relation.ReflTransGen.tail
                (Relation.ReflTransGen.tail Relation.ReflTransGen.refl
                  (Step.acquire wS0 0 (by decide) (by decide)))
                (Step.callBegin wS1 0 (by decide)))
              (Step.callEnd wS2 0 (by decide)))
            (Step.release wS3 0 (by decide) (by decide)))
          (Step.acquire wS4 1 (by decide) (by decide)))
        (Step.callBegin wS5 1 (by decide)))
      (Step.callEnd wS6 1 (by decide)))
    (Step.release wS7 1 (by decide) (by decide))

/-- Witness for C1 on a concrete complete two-thread run: the final trace
is serialized, holds two sink calls, and each thread's call appears
exactly once. -/
theorem serializedLogger_serializes_concurrent_calls_witness :
    scanSt none wS8.trace = some none ∧ enters wS8.trace = 2 ∧
    cnt (Ev.enter 0) wS8.trace = 1 ∧ cnt (Ev.exit 1) wS8.trace = 1 :=
  ⟨(serializedLogger_serializes_concurrent_calls wS8 wReach (by decide)).1,
   (serializedLogger_serializes_concurrent_calls wS8 wReach (by decide)).2.1,
   ((serializedLogger_serializes_concurrent_calls wS8 wReach
      (by decide)).2.2 0).1,
   ((serializedLogger_serializes_concurrent_calls wS8 wReach
      (by decide)).2.2 1).2⟩

end KitLog
